import Mathlib

/-
Formal model of processMC.py (Sandia, 2011): a Monte Carlo simulator that
computes quantum process matrices and evolution superoperators for an
N-qubit system driven by noisy, time-dependent controls, optionally with
Lindblad dissipation.

The source operates on numpy arrays of complex double floats.  We model the
complex scalars exactly by the field of complex rationals (CQ below) so that
every definition is executable and concrete evaluations can be checked by
the kernel, and we model dynamically shaped numpy arrays by rectangular
lists of lists (ListMat below).  Where the source calls out to external
libraries (scipy.linalg.expm, scipy.linalg.eig, numpy random draws, the
entrywise float abs) the external call is a parameter of the embedded
definition, documented at its use site.
-/

/-- Complex numbers with rational real and imaginary parts: an executable,
decidable model of the complex double floats used by processMC.py. -/
structure CQ where
  re : ℚ
  im : ℚ
deriving DecidableEq, Repr

namespace CQ

instance : Zero CQ := ⟨⟨0, 0⟩⟩

instance : One CQ := ⟨⟨1, 0⟩⟩

instance : Add CQ := ⟨fun a b => ⟨a.re + b.re, a.im + b.im⟩⟩

instance : Neg CQ := ⟨fun a => ⟨-a.re, -a.im⟩⟩

instance : Mul CQ := ⟨fun a b => ⟨a.re * b.re - a.im * b.im, a.re * b.im + a.im * b.re⟩⟩

/-- The imaginary unit (1j in the python source). -/
def I : CQ := ⟨0, 1⟩

theorem zero_def : (0 : CQ) = ⟨0, 0⟩ := rfl

theorem one_def : (1 : CQ) = ⟨1, 0⟩ := rfl

theorem add_def (a b : CQ) : a + b = ⟨a.re + b.re, a.im + b.im⟩ := rfl

theorem neg_def (a : CQ) : -a = ⟨-a.re, -a.im⟩ := rfl

theorem mul_def (a b : CQ) :
    a * b = ⟨a.re * b.re - a.im * b.im, a.re * b.im + a.im * b.re⟩ := rfl

theorem ext_iff {a b : CQ} : a = b ↔ a.re = b.re ∧ a.im = b.im := by
  cases a; cases b; simp

instance : CommRing CQ where
  add := (· + ·)
  add_assoc a b c := by simp [add_def, ext_iff]; constructor <;> ring
  zero := 0
  zero_add a := by simp [add_def, zero_def, ext_iff]
  add_zero a := by simp [add_def, zero_def, ext_iff]
  add_comm a b := by simp [add_def, ext_iff]; constructor <;> ring
  mul := (· * ·)
  mul_assoc a b c := by simp [mul_def, ext_iff]; constructor <;> ring
  one := 1
  one_mul a := by simp [mul_def, one_def, ext_iff]
  mul_one a := by simp [mul_def, one_def, ext_iff]
  left_distrib a b c := by simp [mul_def, add_def, ext_iff]; constructor <;> ring
  right_distrib a b c := by simp [mul_def, add_def, ext_iff]; constructor <;> ring
  mul_comm a b := by simp [mul_def, ext_iff]; constructor <;> ring
  zero_mul a := by simp [mul_def, zero_def, ext_iff]
  mul_zero a := by simp [mul_def, zero_def, ext_iff]
  neg := Neg.neg
  neg_add_cancel a := by simp [add_def, neg_def, zero_def, ext_iff]
  nsmul := nsmulRec
  zsmul := zsmulRec

instance : Inv CQ :=
  ⟨fun a => ⟨a.re / (a.re ^ 2 + a.im ^ 2), -a.im / (a.re ^ 2 + a.im ^ 2)⟩⟩

theorem inv_def (a : CQ) :
    a⁻¹ = ⟨a.re / (a.re ^ 2 + a.im ^ 2), -a.im / (a.re ^ 2 + a.im ^ 2)⟩ := rfl

theorem normSq_ne_zero {a : CQ} (h : a ≠ 0) : a.re ^ 2 + a.im ^ 2 ≠ 0 := by
  intro hz
  apply h
  have hre : a.re = 0 := by nlinarith [sq_nonneg a.re, sq_nonneg a.im]
  have him : a.im = 0 := by nlinarith [sq_nonneg a.re, sq_nonneg a.im]
  rw [ext_iff]
  exact ⟨hre, him⟩

instance : Field CQ where
  inv := Inv.inv
  exists_pair_ne := ⟨0, 1, by rw [Ne, ext_iff]; simp [zero_def, one_def]⟩
  mul_inv_cancel a ha := by
    have hn := normSq_ne_zero ha
    rw [ext_iff, mul_def, inv_def, one_def]
    constructor
    · simp only
      field_simp
      ring
    · simp only
      field_simp
      ring
  inv_zero := by rw [ext_iff, inv_def, zero_def]; norm_num
  nnqsmul := _
  qsmul := _

/-- Entrywise complex conjugation, matching numpy .conjugate(). -/
instance : StarRing CQ where
  star a := ⟨a.re, -a.im⟩
  star_involutive a := by simp [ext_iff]
  star_mul a b := by simp [ext_iff, mul_def]; constructor <;> ring
  star_add a b := by simp [ext_iff, add_def]; ring

theorem star_def (a : CQ) : star a = ⟨a.re, -a.im⟩ := rfl

theorem natCast_re (n : ℕ) : (n : CQ).re = n := by
  induction n with
  | zero => rfl
  | succ k ih => simp [Nat.cast_succ, add_def, ih, one_def]

theorem natCast_im (n : ℕ) : (n : CQ).im = 0 := by
  induction n with
  | zero => rfl
  | succ k ih => simp [Nat.cast_succ, add_def, ih, one_def]

instance : CharZero CQ := by
  refine ⟨fun a b h => ?_⟩
  have := congrArg CQ.re h
  rwa [natCast_re, natCast_re, Nat.cast_inj] at this

end CQ

/-
Model of the numpy/scipy matrices used by processMC.py.  A matrix is a list
of rows; shapes are dynamic, as in numpy.  Entries are complex rationals.
Out-of-range accesses default to 0; every claim only exercises in-range,
rectangular data, matching the arrays the source builds.
-/

/-- A numpy matrix of complex floats, modelled as a list of rows over CQ. -/
abbrev ListMat := List (List CQ)

namespace NP

/-- Number of rows (len(A), the first component of numpy shape). -/
def nRows (A : ListMat) : ℕ := A.length

/-- Number of columns (the second component of numpy shape). -/
def nCols (A : ListMat) : ℕ := (A.headD []).length

/-- Entry A[i,j], defaulting to 0 out of range. -/
def entry (A : ListMat) (i j : ℕ) : CQ := (A.getD i []).getD j 0

/-- Build an m-by-n matrix from an entry function. -/
def build (m n : ℕ) (f : ℕ → ℕ → CQ) : ListMat :=
  (List.range m).map (fun i => (List.range n).map (f i))

/-- numpy shape of a matrix. -/
def shape (A : ListMat) : ℕ × ℕ := (nRows A, nCols A)

/-- Entrywise matrix addition. -/
def add (A B : ListMat) : ListMat := List.zipWith (List.zipWith (· + ·)) A B

/-- Entrywise matrix subtraction. -/
def sub (A B : ListMat) : ListMat := List.zipWith (List.zipWith (· - ·)) A B

/-- Multiplication of a matrix by a scalar. -/
def smul (c : CQ) (A : ListMat) : ListMat := A.map (List.map (fun x => c * x))

/-- Entrywise division of a matrix by a scalar. -/
def sdiv (A : ListMat) (c : CQ) : ListMat := A.map (List.map (fun x => x / c))

/-- Matrix product (numpy mat multiplication / dot). -/
def mul (A B : ListMat) : ListMat :=
  build (nRows A) (nCols B)
    (fun i j => ((List.range (nCols A)).map (fun k => entry A i k * entry B k j)).sum)

/-- Kronecker product (scipy.kron). -/
def kron (A B : ListMat) : ListMat :=
  build (nRows A * nRows B) (nCols A * nCols B)
    (fun i j => entry A (i / nRows B) (j / nCols B) * entry B (i % nRows B) (j % nCols B))

/-- Matrix transpose (.T). -/
def transpose (A : ListMat) : ListMat := build (nCols A) (nRows A) (fun i j => entry A j i)

/-- Conjugate transpose (numpy matrix attribute .H). -/
def conjTrans (A : ListMat) : ListMat :=
  build (nCols A) (nRows A) (fun i j => star (entry A j i))

/-- Entrywise complex conjugation (.H.T in the source, numpy .conjugate()). -/
def conjEntries (A : ListMat) : ListMat := A.map (List.map star)

/-- Identity matrix. -/
def eye (n : ℕ) : ListMat := build n n (fun i j => if i = j then 1 else 0)

/-- Zero matrix (scipy.zeros). -/
def zeros (m n : ℕ) : ListMat := build m n (fun _ _ => 0)

/-- Matrix trace. -/
def trace (A : ListMat) : CQ := ((List.range (nRows A)).map (fun i => entry A i i)).sum

/-- Pauli matrix sigI from the module header of processMC.py. -/
def sigI : ListMat := [[1, 0], [0, 1]]

/-- Pauli matrix sigX. -/
def sigX : ListMat := [[0, 1], [1, 0]]

/-- Pauli matrix sigY. -/
def sigY : ListMat := [[0, -CQ.I], [CQ.I, 0]]

/-- Pauli matrix sigZ. -/
def sigZ : ListMat := [[1, 0], [0, -1]]

/-- Left-fold of kron over n copies of M: reduce(kron, (M,)*n) for n >= 1.
The source never forms this for n = 0; the n = 0 value is the 1-by-1 identity. -/
def iterKron (M : ListMat) : ℕ → ListMat
  | 0 => [[1]]
  | 1 => M
  | n + 1 => kron (iterKron M n) M

/-- Pairwise Kronecker products of two lists of matrices: scipy.kron applied
to two rank-3 arrays, as in reduce(kron, (partial_basis,)*n). -/
def kronBasis (L1 L2 : List ListMat) : List ListMat :=
  L1.flatMap (fun A => L2.map (fun B => kron A B))

/-- The normalized one-qubit process basis [sigI/2, sigX/2, sigY/2, sigZ/2]. -/
def partialBasis : List ListMat :=
  [sdiv sigI 2, sdiv sigX 2, sdiv sigY 2, sdiv sigZ 2]

/-- reduce(kron, (partial_basis,)*n) for n >= 1, the tensor-Pauli process
basis on n qubits.  The n = 0 value is never formed by the source. -/
def basisList : ℕ → List ListMat
  | 0 => [[[1]]]
  | 1 => partialBasis
  | n + 1 => kronBasis (basisList n) partialBasis

end NP

/-
Model of the Field class (processMC.py lines 82-597).  Time grids are float
arrays that python passes and stores by reference: define_control stores the
caller-supplied grid object itself in both input_times and times, and the
timing-jitter branch of make_noise mutates that shared object in place.  To
express this the state carries an explicit arena of arrays (heap) and the
attributes times and input_times are references (indices) into it.  The
remaining attributes are plain values.  Real floats are modelled by ℚ.
-/

/-- State of a Field instance.  input_times is None until define_control or
the timing branch of make_noise first sets it (reading it before that raises
AttributeError in python). -/
structure FieldSt where
  heap : List (List ℚ)
  times : ℕ
  input_times : Option ℕ
  t_final : ℚ
  n_steps : ℕ
  control_field : List ℚ
  control_defined : Bool
  timing_error : Bool
  noise_type : String
  corrfn : List ℚ
  corrMat : List (List ℚ)
  KL_calculated : Bool
  value : List ℚ
deriving DecidableEq

namespace Field

/-- Tail of Field.define_control: the length check on the control signal.
On a mismatch the source prints the error message and discards the
attempted control-field mutation. -/
def setControlLength (st : FieldSt) (control_field : List ℚ) : FieldSt :=
  if control_field.length = st.n_steps then
    { st with control_defined := true, control_field := control_field }
  else
    st

/-- Field.define_control (lines 237-259).  The optional argument is a
reference to a caller-owned time-grid array.  When it is supplied the source
first rebinds input_times and times to that object and sets t_final to its
last entry, and only then checks the control-signal length; times[-1] on an
empty grid raises IndexError, modelled by none. -/
def define_control (st : FieldSt) (control_field : List ℚ) (in_times : Option ℕ) :
    Option FieldSt :=
  match in_times with
  | some r =>
    match (st.heap.getD r []).getLast? with
    | none => none
    | some tl =>
      some (setControlLength
        { st with input_times := some r, times := r, t_final := tl } control_field)
  | none =>
    some (setControlLength { st with input_times := some st.times } control_field)

/-- scipy.linspace(a, b, n): n evenly spaced samples from a to b inclusive
(external library routine, modelled from its documented behaviour). -/
def linspace (a b : ℚ) (n : ℕ) : List ℚ :=
  if n = 0 then []
  else if n = 1 then [a]
  else (List.range n).map (fun k : ℕ => a + (b - a) * (k : ℚ) / ((n : ℚ) - 1))

/-- Field.make_defined (lines 356-368): store the correlation function
sampled on linspace(0, t_final, n_steps) and invalidate the KL cache. -/
def make_defined (st : FieldSt) (corrfn : ℚ → ℚ) : FieldSt :=
  { st with noise_type := "defined",
            corrfn := (linspace 0 st.t_final st.n_steps).map corrfn,
            KL_calculated := false }

/-- scipy.linalg.toeplitz(c) (external library routine, modelled from its
documented behaviour): first column c, first row the conjugate of c, which
over the reals is the symmetric Toeplitz matrix T[i,j] = c[|i-j|]. -/
def toeplitz (c : List ℚ) : List (List ℚ) :=
  (List.range c.length).map (fun i =>
    (List.range c.length).map (fun j =>
      if j ≤ i then c.getD (i - j) 0 else c.getD (j - i) 0))

/-- Field.calc_KL (lines 402-412): form the Toeplitz correlation matrix of
the stored correlation sequence and mark the KL cache valid.  The
eigen-decomposition scipy.linalg.eig(corrMat) is an external LAPACK call
whose numeric output is not modelled. -/
def calc_KL (st : FieldSt) : FieldSt :=
  { st with corrMat := toeplitz st.corrfn, KL_calculated := true }

/-- The in-place jitter loop of Field.make_noise: for index in
range(1, len(times)-1): times[index] += gauss(0, sqrt(timing_variance)).
The gaussian draw at interior index i is the parameter delta i. -/
def jitterTimes (a : List ℚ) (delta : ℕ → ℚ) : List ℚ :=
  (List.range a.length).map (fun i =>
    if 1 ≤ i ∧ i + 1 < a.length then a.getD i 0 + delta i else a.getD i 0)

/-- The timing-error branch of Field.make_noise (lines 422-433), taken when
timing_error is set: rebind times to the array input_times references, add a
fresh gaussian offset to every interior entry of that shared array in place,
set value to the control field and return it.  Reading input_times before it
was ever assigned raises AttributeError, modelled by none. -/
def make_noise_timing (st : FieldSt) (delta : ℕ → ℚ) : Option (FieldSt × List ℚ) :=
  match st.input_times with
  | none => none
  | some r =>
    let a := st.heap.getD r []
    let st1 := { st with times := r,
                         heap := st.heap.set r (jitterTimes a delta),
                         value := st.control_field }
    some (st1, st.control_field)

end Field

/-
Model of the Liouvillian class (processMC.py lines 600-1112).  The
attributes touched by the claims are carried in LiouvSt; attributes that
only feed printing (verbose flags, gate_name) are omitted.  The three
matrix-valued attributes that the constructor leaves unset are Options.
-/

/-- State of a Liouvillian instance. -/
structure LiouvSt where
  n_qubits : ℕ
  hbar : CQ
  use_lindblad : Bool
  lindblad_superoperator : ListMat
  identity : ListMat
  process_basis : List ListMat
  unitary_matrix : Option ListMat
  evolution_superoperator : Option ListMat
  process_matrix : Option ListMat
deriving DecidableEq

namespace Liouvillian

/-- Liouvillian constructor (lines 672-728).  hamAtOnes is the value of
hamiltonian_function(1, ..., 1), which the constructor evaluates only when
the n_qubits keyword was not supplied, to infer n_qubits as
int(log(len(H))/log(2)); for matrices whose row count is an exact power of
two this float computation is Nat.log2.  With an explicit n_qubits keyword
the Hamiltonian function is never called and no shape validation occurs, so
the constructor body is straight-line and always completes.  hbar is kept at
the default convention 1.  For n_qubits = 0 the source leaves identity and
process_basis unset; the claims only exercise n_qubits >= 1. -/
def init (n_keyword : Option ℕ) (hamAtOnes : ListMat) : LiouvSt :=
  let n := match n_keyword with
    | some k => k
    | none => Nat.log2 (NP.nRows hamAtOnes)
  { n_qubits := n
    hbar := 1
    use_lindblad := false
    lindblad_superoperator := NP.zeros (4 ^ n) (4 ^ n)
    identity := NP.iterKron NP.sigI n
    process_basis := NP.basisList n
    unitary_matrix := none
    evolution_superoperator := none
    process_matrix := none }

/-- Liouvillian.convert_super_to_process (lines 952-959):
process_matrix[i1,i2] = trace(kron(basis[i2].T, basis[i1]) * superoperator). -/
def convert_super_to_process (st : LiouvSt) (superoperator : ListMat) : ListMat :=
  NP.build (4 ^ st.n_qubits) (4 ^ st.n_qubits) (fun i1 i2 =>
    NP.trace (NP.mul
      (NP.kron (NP.transpose (st.process_basis.getD i2 []))
               (st.process_basis.getD i1 []))
      superoperator))

/-- Liouvillian.set_evolution_superoperator (lines 962-976): store the
superoperator and recompute the process matrix from it. -/
def set_evolution_superoperator (st : LiouvSt) (superoperator_value : ListMat) : LiouvSt :=
  { st with evolution_superoperator := some superoperator_value,
            process_matrix := some (convert_super_to_process st superoperator_value) }

/-- Liouvillian.set_process_matrix (lines 988-989): store the process
matrix.  Nothing else is recomputed. -/
def set_process_matrix (st : LiouvSt) (process_matrix_value : ListMat) : LiouvSt :=
  { st with process_matrix := some process_matrix_value }

/-- Liouvillian.add_lindblad (lines 817-838).  The source sets
use_lindblad = True before the shape check; on shape (2^n, 2^n) it adds
scale_factor * (kron(L.H.T, L) - 0.5*kron(I, L.H*L) - 0.5*kron((L.H*L).T, I))
to the stored Lindblad superoperator, and otherwise prints the
wrong-dimension message and adds nothing. -/
def add_lindblad (st : LiouvSt) (lindblad_operator : ListMat) (scale_factor : CQ) : LiouvSt :=
  let st1 : LiouvSt := { st with use_lindblad := true }
  if NP.shape lindblad_operator = (2 ^ st.n_qubits, 2 ^ st.n_qubits) then
    let LdL : ListMat := NP.mul (NP.conjTrans lindblad_operator) lindblad_operator
    let t1 : ListMat := NP.kron (NP.conjEntries lindblad_operator) lindblad_operator
    let t2 : ListMat := NP.smul ⟨1/2, 0⟩ (NP.kron st.identity LdL)
    let t3 : ListMat := NP.smul ⟨1/2, 0⟩ (NP.kron (NP.transpose LdL) st.identity)
    let temp : ListMat := NP.sub (NP.sub t1 t2) t3
    let newL : ListMat := NP.add st.lindblad_superoperator (NP.smul scale_factor temp)
    { st1 with lindblad_superoperator := newL }
  else
    st1

/-- The unitary accumulation of the use_lindblad == False branch of
Liouvillian.propagate (lines 864-892).  E models the external
scipy.linalg.expm; Hs and dts are the hamiltonian_matrices and dts produced
by build_hamiltonians for the trajectory.  An IndexError on a missing
Hamiltonian is caught by the source, which prints and skips that factor. -/
def propagate_unitary (E : ListMat → ListMat) (st : LiouvSt)
    (Hs : List ListMat) (dts : List CQ) : ListMat :=
  (List.range dts.length).foldl (fun U index =>
    match Hs.get? index with
    | some H => NP.mul (E (NP.smul (-CQ.I * dts.getD index 0 / st.hbar) H)) U
    | none => U) st.identity

/-- The use_lindblad == False branch of Liouvillian.propagate: accumulate
the unitary, lift it to the superoperator kron(unitary_matrix.H,
unitary_matrix), store both via set_evolution_superoperator, and return the
unitary or the superoperator as requested. -/
def propagate_no_lindblad (E : ListMat → ListMat) (st : LiouvSt)
    (Hs : List ListMat) (dts : List CQ) (return_unitary : Bool) :
    LiouvSt × ListMat :=
  let unitary_matrix := propagate_unitary E st Hs dts
  let superoperator_matrix := NP.kron (NP.conjTrans unitary_matrix) unitary_matrix
  let st1 := set_evolution_superoperator
    { st with unitary_matrix := some unitary_matrix } superoperator_matrix
  (st1, if return_unitary then unitary_matrix else superoperator_matrix)

/-
Model of Liouvillian.run_converging (lines 1031-1079).  Each call to
loop_propagate / parallel_propagate produces one batch superoperator from
fresh random draws; the loop sees them as an incoming stream, modelled as a
list.  A batch on which scipy.isnan(...).any() is true never takes part in
any arithmetic (the loop discards it wholesale), so such a batch is
modelled as the opaque marker none, and a NaN-free batch as some matrix.
numpy computes the error abs(newRun - oldRun).max() with the float modulus
of every entry; that irrational-valued entrywise functional is passed in as
the parameter err, and all results below hold for every choice of err. -/

/-- Loop state of run_converging: the running average, the count of
completed (accepted) batches, and the consecutive below-tolerance count. -/
structure ConvOut where
  running : ListMat
  completed : ℕ
  below : ℕ
deriving DecidableEq

/-- The running-average update of run_converging (line 1059):
(completed_iterations * running + current) / (completed_iterations + 1),
with the integer scalar broadcast over the complex array. -/
def convUpdate (completed : ℕ) (running current : ListMat) : ListMat :=
  NP.sdiv (NP.add (NP.smul (completed : CQ) running) current) ((completed : CQ) + 1)

/-- The while loop of run_converging (lines 1051-1077).  The guard
times_below_tolerance < n_below_tols is checked before each batch; a
NaN-marked batch hits the isnan continue; an accepted batch updates the
running average, the completed count, and resets or advances the
below-tolerance count by comparing err < tolerance.  The loop exits with
the final state; an exhausted stream (the loop would keep drawing batches)
is none. -/
def run_converging_loop (err : ListMat → ListMat → ℚ) (tol : ℚ) (nBelow : ℕ) :
    List (Option ListMat) → ListMat → ℕ → ℕ → Option ConvOut
  | batches, running, completed, below =>
    if nBelow ≤ below then some ⟨running, completed, below⟩
    else
      match batches with
      | [] => none
      | none :: rest => run_converging_loop err tol nBelow rest running completed below
      | some current :: rest =>
        let newRun := convUpdate completed running current
        let e := err newRun running
        run_converging_loop err tol nBelow rest newRun (completed + 1)
          (if e < tol then below + 1 else 0)

/-- Liouvillian.run_converging: the initial batch (the loop_propagate call
before the while loop, which the source never NaN-checks) seeds the running
average with completed_iterations = 1 and times_below_tolerance = 0, then
the while loop runs. -/
def run_converging (err : ListMat → ListMat → ℚ) (tol : ℚ) (nBelow : ℕ)
    (init : ListMat) (batches : List (Option ListMat)) : Option ConvOut :=
  run_converging_loop err tol nBelow batches init 1 0

/-- Instrumented mirror of run_converging_loop that also records, in order,
the accepted batches and the error value computed at each accepted batch.
Used only to state and prove properties of run_converging_loop. -/
def run_converging_trace (err : ListMat → ListMat → ℚ) (tol : ℚ) (nBelow : ℕ) :
    List (Option ListMat) → ListMat → ℕ → ℕ → List ListMat → List ℚ →
    Option (ConvOut × List ListMat × List ℚ)
  | batches, running, completed, below, used, errs =>
    if nBelow ≤ below then some (⟨running, completed, below⟩, used, errs)
    else
      match batches with
      | [] => none
      | none :: rest => run_converging_trace err tol nBelow rest running completed below used errs
      | some current :: rest =>
        let newRun := convUpdate completed running current
        let e := err newRun running
        run_converging_trace err tol nBelow rest newRun (completed + 1)
          (if e < tol then below + 1 else 0) (used ++ [current]) (errs ++ [e])

/-- Sum of the initial batch and a list of accepted batches. -/
def sumMats (init : ListMat) (l : List ListMat) : ListMat := l.foldl NP.add init

/-- Length of the maximal run of values < tol at the head of a list. -/
def leadBelowCount (tol : ℚ) : List ℚ → ℕ
  | [] => 0
  | e :: rest => if e < tol then leadBelowCount tol rest + 1 else 0

/-- Length of the maximal run of values < tol at the end of a list: the
number of consecutive most recent accepted batches whose error was below
tolerance. -/
def trailingBelowCount (tol : ℚ) (errs : List ℚ) : ℕ := leadBelowCount tol errs.reverse

end Liouvillian

/-
Auxiliary definitions for stating the claims, and concrete fixtures used by
the counterexamples and witnesses.
-/

/-- Entry (i, j) of a real matrix, defaulting to 0 out of range. -/
def entryQ (A : List (List ℚ)) (i j : ℕ) : ℚ := (A.getD i []).getD j 0

/-- The per-operator Lindblad contribution exactly as claim C2 words it:
rate * (L x conj(L) - 1/2 (I x Ldag L) - 1/2 ((Ldag L)^T x I)) with L itself
as the first Kronecker factor and its entrywise conjugate as the second. -/
def c2ClaimTerm (idm L : ListMat) (rate : CQ) : ListMat :=
  NP.smul rate (NP.sub (NP.sub
      (NP.kron L (NP.conjEntries L))
      (NP.smul ⟨1/2, 0⟩ (NP.kron idm (NP.mul (NP.conjTrans L) L))))
    (NP.smul ⟨1/2, 0⟩ (NP.kron (NP.transpose (NP.mul (NP.conjTrans L) L)) idm)))

/-- The exact value of scipy.linalg.expm at the single matrix it is applied
to in the C1 evaluation below: that matrix N = (-1j)*Hbug*1/1 satisfies
N*N = 0, and the exponential series of a square-zero matrix is exactly
I + N (all higher terms vanish), with no floating-point error. -/
def expNil (A : ListMat) : ListMat := NP.add (NP.eye 2) A

/-- The Hamiltonian matrix of the C1 evaluation: a legal value of a
hamiltonian_function (the source never restricts its output) for which the
accumulated unitary is not a symmetric matrix. -/
def Hbug : ListMat := [[0, CQ.I], [0, 0]]

/-- expm(-1j * Hbug * 1 / 1) = I + [[0,1],[0,0]]: the unitary factor the C1
evaluation accumulates. -/
def Ubug : ListMat := [[1, 1], [0, 1]]

/-- A one-qubit Liouvillian fixture: Liouvillian(hamiltonian, field) with
hamiltonian_function returning sigX and no n_qubits keyword resolves to
this state. -/
def lSt1 : LiouvSt := Liouvillian.init (some 1) NP.sigX

/-- The fixture after set_evolution_superoperator with the identity
superoperator: evolution_superoperator and process_matrix are consistent. -/
def lSt2 : LiouvSt := Liouvillian.set_evolution_superoperator lSt1 (NP.eye 4)

/-- A Field fixture: two steps, horizon 1, two arrays in the arena; the
instance grid is array 0, array 1 is a caller-owned grid [0, 1, 2, 3]. -/
def fieldSt0 : FieldSt :=
  { heap := [[0, 1/2, 1], [0, 1, 2, 3]]
    times := 0
    input_times := none
    t_final := 1
    n_steps := 2
    control_field := [0, 0]
    control_defined := false
    timing_error := false
    noise_type := "white"
    corrfn := [0, 0]
    corrMat := []
    KL_calculated := false
    value := [] }

/-- A Field fixture with timing jitter active and the control grid bound by
define_control, as claim C10 presupposes. -/
def fieldStT : FieldSt :=
  { fieldSt0 with timing_error := true, input_times := some 0,
                  control_field := [5, 6], control_defined := true }

/-- A correctly shaped 2-by-2 Lindblad operator with two distinct nonzero
entries, on which the two Kronecker factor orders disagree. -/
def Lc2 : ListMat := [[1, 0], [CQ.I, 0]]

/-
Theorems.  Each claim Cn of the specification is settled below; helper
lemmas shared between claims come first where needed.
-/

/-- C3 counterexample: with the two-step fixture, define_control called with
the length-3 signal [1,2,3] (mismatching n_steps = 2) and the explicit
caller grid [0,1,2,3] does not leave the instance state unchanged: t_final
moves from 1 to 3, times is rebound from array 0 to array 1, and
input_times is assigned.  This refutes the claim that times, input_times
and t_final keep their prior values on a rejected control assignment. -/
theorem c3_state_mutated_on_mismatch :
    (Field.define_control fieldSt0 [1, 2, 3] (some 1)).map FieldSt.t_final = some 3 ∧
    fieldSt0.t_final = 1 ∧
    (Field.define_control fieldSt0 [1, 2, 3] (some 1)).map FieldSt.times = some 1 ∧
    fieldSt0.times = 0 ∧
    (Field.define_control fieldSt0 [1, 2, 3] (some 1)).map FieldSt.input_times =
      some (some 1) ∧
    fieldSt0.input_times = none := by
  with_unfolding_all decide

/-- C3 as amended: when the control signal length mismatches n_steps,
define_control reports the error and keeps control_field and
control_defined unchanged, but it has already rebound times and input_times
and redefined t_final when an explicit grid was supplied, and rebound
input_times to times when none was. -/
theorem define_control_mismatch (st : FieldSt) (control : List ℚ) (r : ℕ) (tl : ℚ)
    (hlen : control.length ≠ st.n_steps)
    (hg : (st.heap.getD r []).getLast? = some tl) :
    Field.define_control st control (some r) =
      some { st with input_times := some r, times := r, t_final := tl } ∧
    Field.define_control st control none =
      some { st with input_times := some st.times } := by
  have hg2 : (st.heap[r]?.getD []).getLast? = some tl := by
    simpa [List.getD_eq_getElem?_getD] using hg
  simp [Field.define_control, Field.setControlLength, hg2, hlen]

/-- C3 witness: the amended statement evaluated on the fixture. -/
theorem define_control_mismatch_witness :
    ([1, 2, 3] : List ℚ).length ≠ fieldSt0.n_steps ∧
    (fieldSt0.heap.getD 1 []).getLast? = some 3 ∧
    (Field.define_control fieldSt0 [1, 2, 3] (some 1) =
        some { fieldSt0 with input_times := some 1, times := 1, t_final := 3 } ∧
      Field.define_control fieldSt0 [1, 2, 3] none =
        some { fieldSt0 with input_times := some fieldSt0.times }) :=
  ⟨by with_unfolding_all decide, by with_unfolding_all decide,
    define_control_mismatch fieldSt0 [1, 2, 3] 1 3
      (by with_unfolding_all decide) (by with_unfolding_all decide)⟩

/-- C4 counterexample: add_lindblad with the wrong-shaped operator [[1]]
(shape (1,1), not (2,2)) leaves the stored Lindblad superoperator unchanged
but flips use_lindblad from false to true, so the instance does not keep
all other attributes: propagation is switched to the dissipative branch.
This refutes the claim that no other attribute changes value. -/
theorem c4_use_lindblad_flipped :
    lSt1.use_lindblad = false ∧
    NP.shape ([[1]] : ListMat) ≠ (2 ^ lSt1.n_qubits, 2 ^ lSt1.n_qubits) ∧
    (Liouvillian.add_lindblad lSt1 [[1]] 1).lindblad_superoperator =
      lSt1.lindblad_superoperator ∧
    (Liouvillian.add_lindblad lSt1 [[1]] 1).use_lindblad = true := by
  with_unfolding_all decide

/-- C4 as amended: on any operator whose shape is not (2^n, 2^n),
add_lindblad reports the error and the resulting state is exactly the prior
state with use_lindblad set to true: in particular the stored Lindblad
superoperator and every attribute other than use_lindblad are unchanged. -/
theorem add_lindblad_wrong_shape (st : LiouvSt) (L : ListMat) (rate : CQ)
    (h : NP.shape L ≠ (2 ^ st.n_qubits, 2 ^ st.n_qubits)) :
    Liouvillian.add_lindblad st L rate = { st with use_lindblad := true } := by
  unfold Liouvillian.add_lindblad
  simp [h]

/-- C4 witness: the amended statement evaluated on the fixture. -/
theorem add_lindblad_wrong_shape_witness :
    NP.shape ([[1]] : ListMat) ≠ (2 ^ lSt1.n_qubits, 2 ^ lSt1.n_qubits) ∧
    Liouvillian.add_lindblad lSt1 [[1]] 1 = { lSt1 with use_lindblad := true } :=
  ⟨by with_unfolding_all decide,
    add_lindblad_wrong_shape lSt1 [[1]] 1 (by with_unfolding_all decide)⟩

/-- C2 counterexample: for the correctly shaped operator Lc2 = [[1,0],[i,0]]
with rate 1, the increment actually stored by add_lindblad differs from the
formula claimed in C2, whose first Kronecker factor is L itself and whose
second is the entrywise conjugate of L: the source uses kron(L.H.T, L),
i.e. the conjugate of L first and L itself second. -/
theorem c2_kron_order :
    NP.shape Lc2 = (2 ^ lSt1.n_qubits, 2 ^ lSt1.n_qubits) ∧
    (Liouvillian.add_lindblad lSt1 Lc2 1).lindblad_superoperator ≠
      NP.add lSt1.lindblad_superoperator (c2ClaimTerm lSt1.identity Lc2 1) := by
  with_unfolding_all decide

/-- C2 as amended: for every operator L of shape (2^n, 2^n) and rate r, the
stored Lindblad superoperator is incremented by exactly
r * (conj(L) x L - 1/2 (I x Ldag L) - 1/2 ((Ldag L)^T x I)): the first
Kronecker factor is the entrywise conjugate of L and the second is L
itself, summed over all added operators. -/
theorem add_lindblad_formula (st : LiouvSt) (L : ListMat) (rate : CQ)
    (h : NP.shape L = (2 ^ st.n_qubits, 2 ^ st.n_qubits)) :
    (Liouvillian.add_lindblad st L rate).lindblad_superoperator =
      NP.add st.lindblad_superoperator (NP.smul rate (NP.sub (NP.sub
          (NP.kron (NP.conjEntries L) L)
          (NP.smul ⟨1/2, 0⟩ (NP.kron st.identity (NP.mul (NP.conjTrans L) L))))
        (NP.smul ⟨1/2, 0⟩ (NP.kron (NP.transpose (NP.mul (NP.conjTrans L) L))
          st.identity)))) := by
  unfold Liouvillian.add_lindblad
  simp [h]

/-- C2 witness: the amended increment evaluated at the amplitude-damping
operator sigma_minus = [[0,0],[1,0]] used by set_T1. -/
theorem add_lindblad_formula_witness :
    NP.shape ([[0, 0], [1, 0]] : ListMat) = (2 ^ lSt1.n_qubits, 2 ^ lSt1.n_qubits) ∧
    (Liouvillian.add_lindblad lSt1 [[0, 0], [1, 0]] 1).lindblad_superoperator =
      NP.add lSt1.lindblad_superoperator (NP.smul 1 (NP.sub (NP.sub
          (NP.kron (NP.conjEntries [[0, 0], [1, 0]]) [[0, 0], [1, 0]])
          (NP.smul ⟨1/2, 0⟩ (NP.kron lSt1.identity
            (NP.mul (NP.conjTrans [[0, 0], [1, 0]]) [[0, 0], [1, 0]]))))
        (NP.smul ⟨1/2, 0⟩ (NP.kron
          (NP.transpose (NP.mul (NP.conjTrans [[0, 0], [1, 0]]) [[0, 0], [1, 0]]))
          lSt1.identity)))) :=
  ⟨by with_unfolding_all decide,
    add_lindblad_formula lSt1 [[0, 0], [1, 0]] 1 (by with_unfolding_all decide)⟩

/-- C5 counterexample: starting from a consistent state (lSt2 was produced
by set_evolution_superoperator with the identity superoperator),
set_process_matrix overwrites the process matrix with zeros without
recomputing anything, after which the stored process matrix no longer
equals convert_super_to_process of the stored evolution superoperator.
This refutes the claim that set_process_matrix recomputes the other side. -/
theorem c5_inconsistent_after_set_process_matrix :
    (Liouvillian.set_process_matrix lSt2 (NP.zeros 4 4)).process_matrix ≠
      some (Liouvillian.convert_super_to_process
        (Liouvillian.set_process_matrix lSt2 (NP.zeros 4 4))
        (((Liouvillian.set_process_matrix lSt2 (NP.zeros 4 4)).evolution_superoperator).getD
          [])) := by
  with_unfolding_all decide

/-- C5 as amended: set_evolution_superoperator stores the superoperator and
recomputes the process matrix from it via the fixed basis-change formula,
so the two are consistent after every such call; set_process_matrix merely
overwrites the process matrix and recomputes nothing, so it can break the
consistency. -/
theorem set_superoperator_consistency (st : LiouvSt) (S P : ListMat) :
    (Liouvillian.set_evolution_superoperator st S).evolution_superoperator = some S ∧
    (Liouvillian.set_evolution_superoperator st S).process_matrix =
      some (Liouvillian.convert_super_to_process
        (Liouvillian.set_evolution_superoperator st S) S) ∧
    Liouvillian.set_process_matrix st P = { st with process_matrix := some P } :=
  ⟨rfl, rfl, rfl⟩

/-- C9 counterexample: constructing a Liouvillian with the explicit keyword
n_qubits = 2 and a Hamiltonian function returning the 2-by-2 matrix sigI
completes and yields a fully formed instance (with its 16-by-16 zero
Lindblad superoperator) even though the output shape (2,2) is not (4,4):
the constructor never calls the Hamiltonian function when n_qubits is
given, so no validation occurs and construction does not fail. -/
theorem c9_no_validation :
    (Liouvillian.init (some 2) NP.sigI).n_qubits = 2 ∧
    NP.shape NP.sigI ≠ (2 ^ 2, 2 ^ 2) ∧
    (Liouvillian.init (some 2) NP.sigI).lindblad_superoperator = NP.zeros 16 16 ∧
    (Liouvillian.init (some 2) NP.sigI).use_lindblad = false := by
  with_unfolding_all decide

/-- C9 as amended: when the n_qubits keyword is given the constructor
completes with that qubit count and performs no validation of the
Hamiltonian function output; when it is absent, n_qubits is inferred from
the Hamiltonian output dimension as its base-2 logarithm. -/
theorem init_n_qubits (H : ListMat) (n k : ℕ) (hk : NP.nRows H = 2 ^ k) :
    (Liouvillian.init (some n) H).n_qubits = n ∧
    (Liouvillian.init none H).n_qubits = k := by
  refine ⟨rfl, ?_⟩
  show Nat.log2 (NP.nRows H) = k
  rw [hk, Nat.log2_eq_log_two, Nat.log_pow (by norm_num)]

/-- C9 witness: the amended statement evaluated at a 4-row Hamiltonian
output. -/
theorem init_n_qubits_witness :
    NP.nRows (NP.eye 4) = 2 ^ 2 ∧
    ((Liouvillian.init (some 7) (NP.eye 4)).n_qubits = 7 ∧
      (Liouvillian.init none (NP.eye 4)).n_qubits = 2) :=
  ⟨by with_unfolding_all decide,
    init_n_qubits (NP.eye 4) 7 2 (by with_unfolding_all decide)⟩

/-- Helper: getD of a function mapped over List.range. -/
theorem getD_range_map {α : Type} (d : α) (f : ℕ → α) (n k : ℕ) :
    ((List.range n).map f).getD k d = if k < n then f k else d := by
  rcases Nat.lt_or_ge k n with h | h
  · simp [List.getD_eq_getElem?_getD, List.getElem?_map, List.getElem?_range h, h]
  · have hnone : ((List.range n).map f)[k]? = none := List.getElem?_eq_none (by simpa using h)
    simp [List.getD_eq_getElem?_getD, hnone, Nat.not_lt.mpr h]

/-- Helper: length of linspace. -/
theorem linspace_length (a b : ℚ) (n : ℕ) : (Field.linspace a b n).length = n := by
  unfold Field.linspace
  split_ifs with h0 h1
  · simp [h0]
  · simp [h1]
  · rw [List.length_map, List.length_range]

/-- Helper: the k-th linspace sample for n >= 2. -/
theorem linspace_getElem (a b : ℚ) (n k : ℕ) (h2 : 2 ≤ n) (hk : k < n) :
    (Field.linspace a b n)[k]? = some (a + (b - a) * k / ((n : ℚ) - 1)) := by
  unfold Field.linspace
  rw [if_neg (by omega), if_neg (by omega), List.getElem?_map, List.getElem?_range hk,
    Option.map_some']

/-- Helper: the (i,j) entry of the Toeplitz matrix of c. -/
theorem toeplitz_entry (c : List ℚ) (i j : ℕ) :
    entryQ (Field.toeplitz c) i j =
      if i < c.length ∧ j < c.length then
        (if j ≤ i then c.getD (i - j) 0 else c.getD (j - i) 0)
      else 0 := by
  unfold entryQ Field.toeplitz
  rw [getD_range_map]
  by_cases hi : i < c.length
  · rw [if_pos hi, getD_range_map]
    by_cases hj : j < c.length
    · simp [hi, hj]
    · simp [hi, hj]
  · rw [if_neg hi]
    simp [hi]

/-- Helper: the Toeplitz matrix of a real sequence is symmetric. -/
theorem toeplitz_symm (c : List ℚ) (i j : ℕ) :
    entryQ (Field.toeplitz c) i j = entryQ (Field.toeplitz c) j i := by
  rw [toeplitz_entry, toeplitz_entry]
  by_cases hi : i < c.length
  · by_cases hj : j < c.length
    · simp only [hi, hj, and_self, if_true, true_and, and_true]
      rcases Nat.lt_trichotomy i j with h | h | h
      · rw [if_neg (show ¬j ≤ i by omega), if_pos (show i ≤ j by omega)]
      · subst h
        simp
      · rw [if_pos (show j ≤ i by omega), if_neg (show ¬i ≤ j by omega)]
    · simp [hi, hj]
  · simp [hi]

/-- C6 counterexample: with t_final = 1, n_steps = 2 and the identity
correlation function, make_defined stores the linspace samples [f 0, f 1],
so C_1 = 1, while the claimed formula C_k = f(k * t_final / n_steps) gives
C_1 = f(1/2) = 1/2.  The linspace grid is endpoint-inclusive, so the
sample spacing divides by n_steps - 1, not n_steps. -/
theorem c6_denominator :
    (Field.make_defined fieldSt0 (fun t => t)).corrfn = [0, 1] ∧
    (Field.make_defined fieldSt0 (fun t => t)).corrfn.getD 1 0 ≠
      (fun t : ℚ => t) ((1 : ℚ) * fieldSt0.t_final / (fieldSt0.n_steps : ℚ)) := by
  with_unfolding_all decide

/-- C6 as amended: for a correlation function f configured via make_defined
with step count n_steps >= 2 and horizon t_final, the stored correlation
sequence has length n_steps and satisfies C_k = f(k * t_final /
(n_steps - 1)) for every k < n_steps, and calc_KL builds the correlation
matrix used for the KL eigen-decomposition as the Toeplitz matrix of that
sequence, which is symmetric and carries the sequence as its first
column. -/
theorem make_defined_correlation (st : FieldSt) (f : ℚ → ℚ) (k : ℕ)
    (h2 : 2 ≤ st.n_steps) (hk : k < st.n_steps) :
    (Field.make_defined st f).corrfn.getD k 0 =
      f ((k : ℚ) * st.t_final / ((st.n_steps : ℚ) - 1)) ∧
    (Field.make_defined st f).corrfn.length = st.n_steps ∧
    (Field.calc_KL (Field.make_defined st f)).corrMat =
      Field.toeplitz ((Field.make_defined st f).corrfn) ∧
    (∀ i j, entryQ ((Field.calc_KL (Field.make_defined st f)).corrMat) i j =
      entryQ ((Field.calc_KL (Field.make_defined st f)).corrMat) j i) ∧
    (∀ i, i < st.n_steps →
      entryQ ((Field.calc_KL (Field.make_defined st f)).corrMat) i 0 =
        (Field.make_defined st f).corrfn.getD i 0) := by
  have hc : (Field.make_defined st f).corrfn =
      (Field.linspace 0 st.t_final st.n_steps).map f := rfl
  have hlen : (Field.make_defined st f).corrfn.length = st.n_steps := by
    rw [hc, List.length_map, linspace_length]
  have hmat : (Field.calc_KL (Field.make_defined st f)).corrMat =
      Field.toeplitz ((Field.make_defined st f).corrfn) := rfl
  refine ⟨?_, hlen, hmat, ?_, ?_⟩
  · rw [hc]
    have hv := linspace_getElem 0 st.t_final st.n_steps k h2 hk
    have harg : 0 + (st.t_final - 0) * (k : ℚ) / ((st.n_steps : ℚ) - 1) =
        (k : ℚ) * st.t_final / ((st.n_steps : ℚ) - 1) := by ring
    rw [List.getD_eq_getElem?_getD, List.getElem?_map, hv, Option.map_some',
      Option.getD_some, harg]
  · intro i j
    rw [hmat]
    exact toeplitz_symm _ i j
  · intro i hi
    rw [hmat, toeplitz_entry, if_pos ⟨by omega, by omega⟩, if_pos (Nat.zero_le i),
      Nat.sub_zero]

/-- C6 witness: the amended statement evaluated at the two-step fixture with
f t = t + 2 and k = 1. -/
theorem make_defined_correlation_witness :
    (2 ≤ fieldSt0.n_steps ∧ 1 < fieldSt0.n_steps) ∧
    ((Field.make_defined fieldSt0 (fun t => t + 2)).corrfn.getD 1 0 =
      (fun t : ℚ => t + 2) ((1 : ℚ) * fieldSt0.t_final / ((fieldSt0.n_steps : ℚ) - 1)) ∧
    (Field.make_defined fieldSt0 (fun t => t + 2)).corrfn.length = fieldSt0.n_steps ∧
    (Field.calc_KL (Field.make_defined fieldSt0 (fun t => t + 2))).corrMat =
      Field.toeplitz ((Field.make_defined fieldSt0 (fun t => t + 2)).corrfn) ∧
    (∀ i j, entryQ ((Field.calc_KL (Field.make_defined fieldSt0 (fun t => t + 2))).corrMat) i j =
      entryQ ((Field.calc_KL (Field.make_defined fieldSt0 (fun t => t + 2))).corrMat) j i) ∧
    (∀ i, i < fieldSt0.n_steps →
      entryQ ((Field.calc_KL (Field.make_defined fieldSt0 (fun t => t + 2))).corrMat) i 0 =
        (Field.make_defined fieldSt0 (fun t => t + 2)).corrfn.getD i 0)) :=
  ⟨⟨by with_unfolding_all decide, by with_unfolding_all decide⟩,
    make_defined_correlation fieldSt0 (fun t => t + 2) 1
      (by with_unfolding_all decide) (by with_unfolding_all decide)⟩

/-- Helper: jitterTimes preserves the grid length. -/
theorem jitterTimes_length (a : List ℚ) (delta : ℕ → ℚ) :
    (Field.jitterTimes a delta).length = a.length := by
  unfold Field.jitterTimes
  rw [List.length_map, List.length_range]

/-- Helper: entrywise description of the jitter loop: interior entries gain
their gaussian offset, the two endpoints are untouched. -/
theorem jitterTimes_getD (a : List ℚ) (delta : ℕ → ℚ) (i : ℕ) :
    (Field.jitterTimes a delta).getD i 0 =
      if i < a.length then
        (if 1 ≤ i ∧ i + 1 < a.length then a.getD i 0 + delta i else a.getD i 0)
      else 0 := by
  unfold Field.jitterTimes
  rw [getD_range_map]


/-- Helper: the result of one run of the timing branch, as an equation. -/
theorem make_noise_timing_eq (st : FieldSt) (r : ℕ) (delta : ℕ → ℚ)
    (hit : st.input_times = some r) :
    Field.make_noise_timing st delta =
      some ({ st with times := r,
                      heap := st.heap.set r (Field.jitterTimes (st.heap.getD r []) delta),
                      value := st.control_field }, st.control_field) := by
  unfold Field.make_noise_timing
  rw [hit]

/-- Helper: reading back an arena slot just written. -/
theorem heap_set_getD (h : List (List ℚ)) (r : ℕ) (a : List ℚ) (hr : r < h.length) :
    (h.set r a).getD r [] = a := by
  rw [List.getD_eq_getElem?_getD, List.getElem?_set_eq_of_lt _ hr, Option.getD_some]

/-- C10: after define_control has bound input_times and times to a shared
grid array, each run of the timing branch of make_noise rebinds times to
the array input_times references and adds the fresh offsets to that array
in place; a second run therefore perturbs the already-jittered grid, so two
runs accumulate delta1 + delta2 on every interior entry (a random walk),
the caller-visible array referenced by input_times is itself mutated, and
the two endpoint entries are never modified. -/
theorem make_noise_timing_shared_grid (st : FieldSt) (r : ℕ) (g : List ℚ)
    (delta1 delta2 : ℕ → ℚ) (hit : st.input_times = some r)
    (hr : r < st.heap.length) (hg : st.heap.getD r [] = g) :
    ∃ st1 st2 : FieldSt,
      Field.make_noise_timing st delta1 = some (st1, st.control_field) ∧
      st1.times = r ∧ st1.input_times = some r ∧
      st1.heap.getD r [] = Field.jitterTimes g delta1 ∧
      Field.make_noise_timing st1 delta2 = some (st2, st1.control_field) ∧
      st2.times = r ∧ st2.input_times = some r ∧
      st2.heap.getD r [] = Field.jitterTimes (Field.jitterTimes g delta1) delta2 ∧
      (∀ i, 1 ≤ i → i + 1 < g.length →
        (st2.heap.getD r []).getD i 0 = g.getD i 0 + delta1 i + delta2 i) ∧
      (st2.heap.getD r []).getD 0 0 = g.getD 0 0 ∧
      (st2.heap.getD r []).getD (g.length - 1) 0 = g.getD (g.length - 1) 0 ∧
      (st2.heap.getD r []).length = g.length := by
  subst hg
  have h1 := make_noise_timing_eq st r delta1 hit
  have hr1 : r < (st.heap.set r (Field.jitterTimes (st.heap.getD r []) delta1)).length := by
    rw [List.length_set]
    exact hr
  have hga : (st.heap.set r (Field.jitterTimes (st.heap.getD r []) delta1)).getD r [] =
      Field.jitterTimes (st.heap.getD r []) delta1 :=
    heap_set_getD st.heap r _ hr
  have hgb : ((st.heap.set r (Field.jitterTimes (st.heap.getD r []) delta1)).set r
        (Field.jitterTimes
          ((st.heap.set r (Field.jitterTimes (st.heap.getD r []) delta1)).getD r [])
          delta2)).getD r [] =
      Field.jitterTimes (Field.jitterTimes (st.heap.getD r []) delta1) delta2 := by
    rw [hga]
    exact heap_set_getD _ r _ hr1
  refine ⟨({ st with
             times := r
             heap := st.heap.set r (Field.jitterTimes (st.heap.getD r []) delta1)
             value := st.control_field } : FieldSt),
          ({ st with
             times := r
             heap := (st.heap.set r (Field.jitterTimes (st.heap.getD r []) delta1)).set r
               (Field.jitterTimes
                 ((st.heap.set r (Field.jitterTimes (st.heap.getD r []) delta1)).getD r [])
                 delta2)
             value := st.control_field } : FieldSt),
          h1, rfl, hit, ?_, ?_, rfl, hit, ?_, ?_, ?_, ?_, ?_⟩
  · exact heap_set_getD st.heap r _ hr
  · exact make_noise_timing_eq _ r delta2 hit
  · exact hgb
  · intro i hi1 hi2
    rw [hgb, jitterTimes_getD, jitterTimes_length, if_pos (by omega),
      if_pos (by omega), jitterTimes_getD, if_pos (by omega), if_pos (by omega)]
  · rw [hgb, jitterTimes_getD, jitterTimes_length]
    by_cases hlen : 0 < (st.heap.getD r []).length
    · rw [if_pos hlen, if_neg (by omega), jitterTimes_getD, if_pos hlen,
        if_neg (by omega)]
    · rw [if_neg hlen]
      have hnil : (st.heap.getD r []) = [] := List.length_eq_zero.mp (by omega)
      rw [hnil]
      rfl
  · rw [hgb, jitterTimes_getD, jitterTimes_length]
    by_cases hlen : 0 < (st.heap.getD r []).length
    · rw [if_pos (show (st.heap.getD r []).length - 1 <
          (st.heap.getD r []).length by omega), if_neg (by omega),
        jitterTimes_getD, if_pos (show (st.heap.getD r []).length - 1 <
          (st.heap.getD r []).length by omega), if_neg (by omega)]
    · rw [if_neg (by omega)]
      have hnil : (st.heap.getD r []) = [] := List.length_eq_zero.mp (by omega)
      rw [hnil]
      rfl
  · rw [hgb, jitterTimes_length, jitterTimes_length]

/-- C10 witness: the shared-grid statement evaluated on the timing fixture
with grid [0, 1/2, 1] and constant offsets 1/4 and 1/8. -/
theorem make_noise_timing_shared_grid_witness :
    (fieldStT.input_times = some 0 ∧ 0 < fieldStT.heap.length ∧
      fieldStT.heap.getD 0 [] = [0, 1/2, 1]) ∧
    (∃ st1 st2 : FieldSt,
      Field.make_noise_timing fieldStT (fun _ => 1/4) = some (st1, fieldStT.control_field) ∧
      st1.times = 0 ∧ st1.input_times = some 0 ∧
      st1.heap.getD 0 [] = Field.jitterTimes [0, 1/2, 1] (fun _ => 1/4) ∧
      Field.make_noise_timing st1 (fun _ => 1/8) = some (st2, st1.control_field) ∧
      st2.times = 0 ∧ st2.input_times = some 0 ∧
      st2.heap.getD 0 [] =
        Field.jitterTimes (Field.jitterTimes [0, 1/2, 1] (fun _ => 1/4)) (fun _ => 1/8) ∧
      (∀ i, 1 ≤ i → i + 1 < ([0, 1/2, 1] : List ℚ).length →
        (st2.heap.getD 0 []).getD i 0 =
          ([0, 1/2, 1] : List ℚ).getD i 0 + (1/4 : ℚ) + (1/8 : ℚ)) ∧
      (st2.heap.getD 0 []).getD 0 0 = ([0, 1/2, 1] : List ℚ).getD 0 0 ∧
      (st2.heap.getD 0 []).getD (([0, 1/2, 1] : List ℚ).length - 1) 0 =
        ([0, 1/2, 1] : List ℚ).getD (([0, 1/2, 1] : List ℚ).length - 1) 0 ∧
      (st2.heap.getD 0 []).length = ([0, 1/2, 1] : List ℚ).length) :=
  ⟨⟨by with_unfolding_all decide, by with_unfolding_all decide,
      by with_unfolding_all decide⟩,
    make_noise_timing_shared_grid fieldStT 0 [0, 1/2, 1] (fun _ => 1/4) (fun _ => 1/8)
      (by with_unfolding_all decide) (by with_unfolding_all decide)
      (by with_unfolding_all decide)⟩

/-- C1: evaluation of the use_lindblad == False branch of propagate at the
failing input: one qubit, hbar = 1, hamiltonian sequence [Hbug] on the
single interval dts = [1], where expm(-1j*Hbug*1/1) is exactly Ubug
(the argument is square-zero, so the exponential series is I plus the
argument, which expNil computes).  The accumulated unitary is Ubug, and the
superoperator the branch stores and returns is kron(Ubug.H, Ubug), the
Kronecker product of the conjugate TRANSPOSE with the unitary; it differs
from the claimed lift kron(conj(Ubug), Ubug) built from the entrywise
conjugate, because Ubug is not symmetric.  The Lindblad branch of propagate
and add_lindblad both use the entrywise-conjugate convention, so the stored
superoperator contradicts the lift the rest of the program uses. -/
theorem c1_superoperator_lift :
    Liouvillian.propagate_unitary expNil lSt1 [Hbug] [1] = Ubug ∧
    (Liouvillian.propagate_no_lindblad expNil lSt1 [Hbug] [1] false).2 =
      NP.kron (NP.conjTrans Ubug) Ubug ∧
    (Liouvillian.propagate_no_lindblad expNil lSt1 [Hbug] [1]
        false).1.evolution_superoperator =
      some (NP.kron (NP.conjTrans Ubug) Ubug) ∧
    (Liouvillian.propagate_no_lindblad expNil lSt1 [Hbug] [1] true).2 = Ubug ∧
    NP.kron (NP.conjTrans Ubug) Ubug ≠ NP.kron (NP.conjEntries Ubug) Ubug := by
  with_unfolding_all decide

/-- Helper: entrywise division by 1 is the identity. -/
theorem sdiv_one (A : ListMat) : NP.sdiv A 1 = A := by
  have hfun : (fun x : CQ => x / 1) = fun x => x := by
    funext x
    simp
  simp [NP.sdiv, hfun]

/-- Helper: scaling by c undoes entrywise division by a nonzero c. -/
theorem smul_sdiv_cancel {c : CQ} (hc : c ≠ 0) (A : ListMat) :
    NP.smul c (NP.sdiv A c) = A := by
  have hfun : ((fun x : CQ => c * x) ∘ fun x : CQ => x / c) = fun x : CQ => x := by
    funext x
    simp only [Function.comp_apply]
    field_simp
  simp [NP.smul, NP.sdiv, List.map_map, hfun]

/-- Helper: the run_converging update turns the mean of k+1 terms plus a new
batch into the mean of k+2 terms. -/
theorem convUpdate_mean (S cur : ListMat) (k : ℕ) :
    Liouvillian.convUpdate (k + 1) (NP.sdiv S ((k + 1 : ℕ) : CQ)) cur =
      NP.sdiv (NP.add S cur) ((k + 2 : ℕ) : CQ) := by
  unfold Liouvillian.convUpdate
  have hc : ((k + 1 : ℕ) : CQ) ≠ 0 := Nat.cast_ne_zero.mpr (Nat.succ_ne_zero k)
  rw [smul_sdiv_cancel hc]
  have hcast : ((k + 1 : ℕ) : CQ) + 1 = ((k + 2 : ℕ) : CQ) := by
    push_cast
    ring
  rw [hcast]

/-- Helper: appending one error updates the trailing below-tolerance count
the same way the loop updates times_below_tolerance. -/
theorem trailingBelowCount_append (tol e : ℚ) (es : List ℚ) :
    Liouvillian.trailingBelowCount tol (es ++ [e]) =
      if e < tol then Liouvillian.trailingBelowCount tol es + 1 else 0 := by
  unfold Liouvillian.trailingBelowCount
  rw [List.reverse_append]
  simp [Liouvillian.leadBelowCount]

/-- Helper: one-step equation of the instrumented loop when the guard
already holds. -/
theorem trace_step_done (err : ListMat → ListMat → ℚ) (tol : ℚ) (nBelow : ℕ)
    (bs : List (Option ListMat)) (r : ListMat) (c bw : ℕ) (us : List ListMat)
    (es : List ℚ) (h : nBelow ≤ bw) :
    Liouvillian.run_converging_trace err tol nBelow bs r c bw us es =
      some (⟨r, c, bw⟩, us, es) := by
  unfold Liouvillian.run_converging_trace
  rw [if_pos h]

/-- Helper: one-step equation of the instrumented loop on a NaN batch. -/
theorem trace_step_none (err : ListMat → ListMat → ℚ) (tol : ℚ) (nBelow : ℕ)
    (rest : List (Option ListMat)) (r : ListMat) (c bw : ℕ) (us : List ListMat)
    (es : List ℚ) (h : ¬nBelow ≤ bw) :
    Liouvillian.run_converging_trace err tol nBelow (none :: rest) r c bw us es =
      Liouvillian.run_converging_trace err tol nBelow rest r c bw us es := by
  conv_lhs => unfold Liouvillian.run_converging_trace
  rw [if_neg h]

/-- Helper: one-step equation of the instrumented loop on an accepted
batch. -/
theorem trace_step_some (err : ListMat → ListMat → ℚ) (tol : ℚ) (nBelow : ℕ)
    (rest : List (Option ListMat)) (cur r : ListMat) (c bw : ℕ)
    (us : List ListMat) (es : List ℚ) (h : ¬nBelow ≤ bw) :
    Liouvillian.run_converging_trace err tol nBelow (some cur :: rest) r c bw us es =
      Liouvillian.run_converging_trace err tol nBelow rest
        (Liouvillian.convUpdate c r cur) (c + 1)
        (if err (Liouvillian.convUpdate c r cur) r < tol then bw + 1 else 0)
        (us ++ [cur]) (es ++ [err (Liouvillian.convUpdate c r cur) r]) := by
  conv_lhs => unfold Liouvillian.run_converging_trace
  rw [if_neg h]

/-- Helper: corresponding one-step equations for the plain loop. -/
theorem loop_step_done (err : ListMat → ListMat → ℚ) (tol : ℚ) (nBelow : ℕ)
    (bs : List (Option ListMat)) (r : ListMat) (c bw : ℕ) (h : nBelow ≤ bw) :
    Liouvillian.run_converging_loop err tol nBelow bs r c bw = some ⟨r, c, bw⟩ := by
  unfold Liouvillian.run_converging_loop
  rw [if_pos h]

/-- Helper: the plain loop skips a NaN batch wholesale. -/
theorem loop_step_none (err : ListMat → ListMat → ℚ) (tol : ℚ) (nBelow : ℕ)
    (rest : List (Option ListMat)) (r : ListMat) (c bw : ℕ) (h : ¬nBelow ≤ bw) :
    Liouvillian.run_converging_loop err tol nBelow (none :: rest) r c bw =
      Liouvillian.run_converging_loop err tol nBelow rest r c bw := by
  conv_lhs => unfold Liouvillian.run_converging_loop
  rw [if_neg h]

/-- Helper: the plain loop on an accepted batch. -/
theorem loop_step_some (err : ListMat → ListMat → ℚ) (tol : ℚ) (nBelow : ℕ)
    (rest : List (Option ListMat)) (cur r : ListMat) (c bw : ℕ) (h : ¬nBelow ≤ bw) :
    Liouvillian.run_converging_loop err tol nBelow (some cur :: rest) r c bw =
      Liouvillian.run_converging_loop err tol nBelow rest
        (Liouvillian.convUpdate c r cur) (c + 1)
        (if err (Liouvillian.convUpdate c r cur) r < tol then bw + 1 else 0) := by
  conv_lhs => unfold Liouvillian.run_converging_loop
  rw [if_neg h]

/-- Helper: the plain loop is the first projection of the instrumented
loop, for any accumulator contents. -/
theorem loop_eq_trace (err : ListMat → ListMat → ℚ) (tol : ℚ) (nBelow : ℕ) :
    ∀ (bs : List (Option ListMat)) (r : ListMat) (c bw : ℕ) (us : List ListMat)
      (es : List ℚ),
      Liouvillian.run_converging_loop err tol nBelow bs r c bw =
        (Liouvillian.run_converging_trace err tol nBelow bs r c bw us es).map
          (fun x => x.1) := by
  intro bs
  induction bs with
  | nil =>
    intro r c bw us es
    by_cases h : nBelow ≤ bw
    · rw [loop_step_done err tol nBelow [] r c bw h,
        trace_step_done err tol nBelow [] r c bw us es h, Option.map_some']
    · unfold Liouvillian.run_converging_loop Liouvillian.run_converging_trace
      rw [if_neg h, if_neg h]
      rfl
  | cons b rest ih =>
    intro r c bw us es
    by_cases h : nBelow ≤ bw
    · rw [loop_step_done err tol nBelow _ r c bw h,
        trace_step_done err tol nBelow _ r c bw us es h, Option.map_some']
    · cases b with
      | none =>
        rw [loop_step_none err tol nBelow rest r c bw h,
          trace_step_none err tol nBelow rest r c bw us es h]
        exact ih r c bw us es
      | some cur =>
        rw [loop_step_some err tol nBelow rest cur r c bw h,
          trace_step_some err tol nBelow rest cur r c bw us es h]
        exact ih _ _ _ _ _

/-- Helper: full characterization of the convergence loop, by induction on
the batch stream.  Starting from a running average that is the mean of the
initial batch and the already-accepted batches us, with the accepted error
list es and the below-counter equal to its trailing below-tolerance run,
a successful exit state is the mean of the initial batch and all accepted
batches, its counters match the final accepted lists, the trailing run of
sub-tolerance errors has reached n_below_tols while no proper prefix of the
error list had done so at its end, and every accepted batch came either
from the prior accepted list or from a non-NaN element of the stream. -/
theorem run_converging_trace_spec (err : ListMat → ListMat → ℚ) (tol : ℚ)
    (nBelow : ℕ) (base : ListMat) :
    ∀ (bs : List (Option ListMat)) (us : List ListMat) (es : List ℚ)
      (r : ListMat) (out : Liouvillian.ConvOut × List ListMat × List ℚ),
      r = NP.sdiv (Liouvillian.sumMats base us) ((us.length + 1 : ℕ) : CQ) →
      es.length = us.length →
      Liouvillian.run_converging_trace err tol nBelow bs r (us.length + 1)
        (Liouvillian.trailingBelowCount tol es) us es = some out →
      (out.1.running = NP.sdiv (Liouvillian.sumMats base out.2.1)
          ((out.2.1.length + 1 : ℕ) : CQ) ∧
       out.1.completed = out.2.1.length + 1 ∧
       out.2.2.length = out.2.1.length ∧
       out.1.below = Liouvillian.trailingBelowCount tol out.2.2 ∧
       nBelow ≤ out.1.below ∧
       es <+: out.2.2 ∧
       (∀ p, es.length ≤ p → p < out.2.2.length →
         Liouvillian.trailingBelowCount tol (out.2.2.take p) < nBelow) ∧
       (∀ b ∈ out.2.1, b ∈ us ∨ some b ∈ bs)) := by
  intro bs
  induction bs with
  | nil =>
    intro us es r out hr hes htr
    by_cases hb : nBelow ≤ Liouvillian.trailingBelowCount tol es
    · rw [trace_step_done err tol nBelow [] r _ _ us es hb] at htr
      have hout := Option.some.inj htr
      subst hout
      refine ⟨hr, rfl, hes, rfl, hb, List.prefix_rfl, ?_, ?_⟩
      · intro p hp1 hp2
        have hp3 : p < es.length := hp2
        omega
      · intro b hbmem
        exact Or.inl hbmem
    · have hnone : Liouvillian.run_converging_trace err tol nBelow [] r
          (us.length + 1) (Liouvillian.trailingBelowCount tol es) us es = none := by
        unfold Liouvillian.run_converging_trace
        rw [if_neg hb]
      rw [hnone] at htr
      exact Option.noConfusion htr
  | cons b rest ih =>
    intro us es r out hr hes htr
    by_cases hb : nBelow ≤ Liouvillian.trailingBelowCount tol es
    · rw [trace_step_done err tol nBelow (b :: rest) r _ _ us es hb] at htr
      have hout := Option.some.inj htr
      subst hout
      refine ⟨hr, rfl, hes, rfl, hb, List.prefix_rfl, ?_, ?_⟩
      · intro p hp1 hp2
        have hp3 : p < es.length := hp2
        omega
      · intro b2 hbmem
        exact Or.inl hbmem
    · cases b with
      | none =>
        rw [trace_step_none err tol nBelow rest r _ _ us es hb] at htr
        obtain ⟨h1, h2, h3, h4, h5, h6, h7, h8⟩ := ih us es r out hr hes htr
        exact ⟨h1, h2, h3, h4, h5, h6, h7,
          fun b2 hbmem => (h8 b2 hbmem).imp id (List.mem_cons_of_mem _)⟩
      | some cur =>
        rw [trace_step_some err tol nBelow rest cur r _ _ us es hb] at htr
        have hsum : Liouvillian.sumMats base (us ++ [cur]) =
            NP.add (Liouvillian.sumMats base us) cur := by
          unfold Liouvillian.sumMats
          rw [List.foldl_append]
          rfl
        have hr' : Liouvillian.convUpdate (us.length + 1) r cur =
            NP.sdiv (Liouvillian.sumMats base (us ++ [cur]))
              (((us ++ [cur]).length + 1 : ℕ) : CQ) := by
          rw [hr, convUpdate_mean, hsum]
          have hlen2 : (us ++ [cur]).length + 1 = us.length + 2 := by simp
          rw [hlen2]
        have hes' : (es ++ [err (Liouvillian.convUpdate (us.length + 1) r cur) r]).length =
            (us ++ [cur]).length := by
          simp [hes]
        rw [← trailingBelowCount_append tol
            (err (Liouvillian.convUpdate (us.length + 1) r cur) r) es,
          show us.length + 1 + 1 = (us ++ [cur]).length + 1 from by simp] at htr
        obtain ⟨h1, h2, h3, h4, h5, h6, h7, h8⟩ :=
          ih (us ++ [cur]) (es ++ [err (Liouvillian.convUpdate (us.length + 1) r cur) r])
            _ out hr' hes' htr
        refine ⟨h1, h2, h3, h4, h5, ?_, ?_, ?_⟩
        · exact (List.prefix_append es _).trans h6
        · intro p hp1 hp2
          rcases Nat.eq_or_lt_of_le hp1 with hpe | hpe
          · have hpre : es <+: out.2.2 := (List.prefix_append es _).trans h6
            have htake : out.2.2.take es.length = es :=
              (List.prefix_iff_eq_take.mp hpre).symm
            rw [← hpe, htake]
            exact not_le.mp hb
          · refine h7 p ?_ hp2
            simp only [List.length_append, List.length_singleton]
            omega
        · intro b2 hbmem
          rcases h8 b2 hbmem with hbu | hbr
          · rcases List.mem_append.mp hbu with hmem | hmem
            · exact Or.inl hmem
            · have hbc : b2 = cur := List.mem_singleton.mp hmem
              subst hbc
              exact Or.inr (List.mem_cons_self _ _)
          · exact Or.inr (List.mem_cons_of_mem _ hbr)

/-- Helper: the initial running average is the mean of the single initial
batch. -/
theorem init_mean (init : ListMat) :
    init = NP.sdiv (Liouvillian.sumMats init [])
      ((([] : List ListMat).length + 1 : ℕ) : CQ) := by
  unfold Liouvillian.sumMats
  rw [List.foldl_nil]
  rw [show ((([] : List ListMat).length + 1 : ℕ) : CQ) = 1 from by simp]
  rw [sdiv_one]

/-- C7: run_converging maintains the running weighted average by the update
newAvg = (k*oldAvg + newBatch)/(k+1) with k the number of completed
batches, so on return the running average is the arithmetic mean of the
initial batch and every accepted batch; the error of each accepted batch is
the entrywise error measure between successive running averages; and it
returns, declaring convergence, exactly when that error has stayed below
the tolerance for n_below_tols consecutive accepted batches: at the exit
the trailing run of sub-tolerance errors is at least n_below_tols while no
proper prefix of the accepted-error sequence ended in such a run.  The
statement holds for every entrywise error functional err, in particular for
the float modulus max abs(newAvg - oldAvg).max() the source computes. -/
theorem run_converging_claim (err : ListMat → ListMat → ℚ) (tol : ℚ)
    (nBelow : ℕ) (init : ListMat) (batches : List (Option ListMat))
    (out : Liouvillian.ConvOut)
    (h : Liouvillian.run_converging err tol nBelow init batches = some out) :
    ∃ used errs,
      Liouvillian.run_converging_trace err tol nBelow batches init 1 0 [] [] =
        some (out, used, errs) ∧
      out.running = NP.sdiv (Liouvillian.sumMats init used)
        ((used.length + 1 : ℕ) : CQ) ∧
      out.completed = used.length + 1 ∧
      errs.length = used.length ∧
      out.below = Liouvillian.trailingBelowCount tol errs ∧
      nBelow ≤ out.below ∧
      (∀ p, p < errs.length →
        Liouvillian.trailingBelowCount tol (errs.take p) < nBelow) := by
  unfold Liouvillian.run_converging at h
  rw [loop_eq_trace err tol nBelow batches init 1 0 [] []] at h
  obtain ⟨x, hx, hx1⟩ := Option.map_eq_some'.mp h
  subst hx1
  obtain ⟨h1, h2, h3, h4, h5, _h6, h7, _h8⟩ :=
    run_converging_trace_spec err tol nBelow init batches [] [] init x
      (init_mean init) rfl hx
  exact ⟨x.2.1, x.2.2, hx, h1, h2, h3, h4, h5,
    fun p hp => h7 p (Nat.zero_le p) hp⟩

/-- C7 witness: a concrete converging run with one accepted batch equal to
the initial batch. -/
theorem run_converging_claim_witness :
    Liouvillian.run_converging (fun _ _ => (0 : ℚ)) 1 1 [[1]] [some [[1]]] =
      some ⟨[[1]], 2, 1⟩ ∧
    (∃ used errs,
      Liouvillian.run_converging_trace (fun _ _ => (0 : ℚ)) 1 1 [some [[1]]]
        [[1]] 1 0 [] [] = some (⟨[[1]], 2, 1⟩, used, errs) ∧
      (⟨[[1]], 2, 1⟩ : Liouvillian.ConvOut).running =
        NP.sdiv (Liouvillian.sumMats [[1]] used) ((used.length + 1 : ℕ) : CQ) ∧
      (⟨[[1]], 2, 1⟩ : Liouvillian.ConvOut).completed = used.length + 1 ∧
      errs.length = used.length ∧
      (⟨[[1]], 2, 1⟩ : Liouvillian.ConvOut).below =
        Liouvillian.trailingBelowCount 1 errs ∧
      1 ≤ (⟨[[1]], 2, 1⟩ : Liouvillian.ConvOut).below ∧
      (∀ p, p < errs.length →
        Liouvillian.trailingBelowCount 1 (errs.take p) < 1)) :=
  ⟨by with_unfolding_all decide,
    run_converging_claim (fun _ _ => (0 : ℚ)) 1 1 [[1]] [some [[1]]] ⟨[[1]], 2, 1⟩
      (by with_unfolding_all decide)⟩

/-- C8: inside the convergence loop, a batch whose superoperator contains a
NaN entry (modelled by the opaque marker none, since such a batch never
takes part in any arithmetic) is discarded and retried: the loop state
after consuming it is identical, so it contributes nothing to the running
average and advances neither the completed-iterations counter nor the
consecutive-below-tolerance counter; consequently every batch accepted into
the running estimate of a successful run is a NaN-free element of the
stream, so NaN values are never averaged into the running estimate. -/
theorem run_converging_nan_skipped (err : ListMat → ListMat → ℚ) (tol : ℚ)
    (nBelow : ℕ) (rest : List (Option ListMat)) (r : ListMat) (c bw : ℕ)
    (hbw : bw < nBelow) :
    Liouvillian.run_converging_loop err tol nBelow (none :: rest) r c bw =
      Liouvillian.run_converging_loop err tol nBelow rest r c bw ∧
    (∀ init batches out,
      Liouvillian.run_converging err tol nBelow init batches = some out →
      ∃ used errs,
        Liouvillian.run_converging_trace err tol nBelow batches init 1 0 [] [] =
          some (out, used, errs) ∧
        out.running = NP.sdiv (Liouvillian.sumMats init used)
          ((used.length + 1 : ℕ) : CQ) ∧
        ∀ b ∈ used, some b ∈ batches) := by
  constructor
  · exact loop_step_none err tol nBelow rest r c bw (not_le.mpr hbw)
  · intro init batches out h
    unfold Liouvillian.run_converging at h
    rw [loop_eq_trace err tol nBelow batches init 1 0 [] []] at h
    obtain ⟨x, hx, hx1⟩ := Option.map_eq_some'.mp h
    subst hx1
    obtain ⟨h1, _h2, _h3, _h4, _h5, _h6, _h7, h8⟩ :=
      run_converging_trace_spec err tol nBelow init batches [] [] init x
        (init_mean init) rfl hx
    exact ⟨x.2.1, x.2.2, hx, h1,
      fun b hbmem => (h8 b hbmem).resolve_left (List.not_mem_nil b)⟩

/-- C8 witness: the skip equation and membership property evaluated on a
concrete NaN-marked batch. -/
theorem run_converging_nan_skipped_witness :
    (0 : ℕ) < 1 ∧
    (Liouvillian.run_converging_loop (fun _ _ => (0 : ℚ)) 1 1 [none] [[1]] 1 0 =
        Liouvillian.run_converging_loop (fun _ _ => (0 : ℚ)) 1 1 [] [[1]] 1 0 ∧
      (∀ init batches out,
        Liouvillian.run_converging (fun _ _ => (0 : ℚ)) 1 1 init batches = some out →
        ∃ used errs,
          Liouvillian.run_converging_trace (fun _ _ => (0 : ℚ)) 1 1 batches init
            1 0 [] [] = some (out, used, errs) ∧
          out.running = NP.sdiv (Liouvillian.sumMats init used)
            ((used.length + 1 : ℕ) : CQ) ∧
          ∀ b ∈ used, some b ∈ batches)) :=
  ⟨by with_unfolding_all decide,
    run_converging_nan_skipped (fun _ _ => (0 : ℚ)) 1 1 [] [[1]] 1 0
      (by with_unfolding_all decide)⟩
